import Mathlib

/-!
Verification of the `leonard` relay orchestrator (Rust, `src/main.rs` and
`src/tui.rs`) against its natural-language specification.

Modelling conventions (shallow embedding):
* A Rust `String`/`&str` is modelled as a `List Char`.  Byte positions are
  recovered through `Char.utf8Size`, so byte-indexed operations
  (`truncate`, `char_to_byte_index`, `String::insert/remove`) are faithful
  to the UTF-8 byte layout of the original.  In this model every value is
  a sequence of scalar values, so "the result is valid UTF-8" is expressed
  by the fact that an operation succeeds (returns `some`) and yields a
  character list; "no multi-byte character is split" is expressed by
  suffix/boundary facts about whole characters.
* Fallible byte-indexed Rust operations that would panic are modelled as
  `Option`-returning functions (`none` = panic).
* `serde_json::Value` is modelled by the inductive `JsonValue`; its compact
  serialization (`Value::to_string`) is modelled by `vToString`.
* Process spawning and channels are not modelled; the control decisions the
  claims are about (empty-prompt gates, the relay-loop turn accounting, the
  TUI key handlers) are modelled as pure functions of the relevant state,
  faithful to the control flow of the source.
-/

namespace Leonard

/-- Rust `char::is_whitespace` (Unicode `White_Space` property),
used by `str::trim`, `str::trim_end` and friends. -/
def rIsWhitespace (c : Char) : Bool :=
  c.val = 0x09 || c.val = 0x0A || c.val = 0x0B || c.val = 0x0C || c.val = 0x0D ||
  c.val = 0x20 || c.val = 0x85 || c.val = 0xA0 || c.val = 0x1680 ||
  (0x2000 ≤ c.val && c.val ≤ 0x200A) ||
  c.val = 0x2028 || c.val = 0x2029 || c.val = 0x202F || c.val = 0x205F || c.val = 0x3000

/-- Convenience: the character list of a Lean string literal. -/
def strL (s : String) : List Char := s.data

/-- Byte length of a string in its UTF-8 encoding (Rust `str::len`). -/
def byteLen (s : List Char) : Nat := (s.map Char.utf8Size).sum

/-- Rust `str::trim`: drop leading and trailing whitespace. -/
def rtrim (s : List Char) : List Char :=
  (s.dropWhile rIsWhitespace).rdropWhile rIsWhitespace

/-- Rust `str::trim_end`: drop trailing whitespace. -/
def trimEndL (s : List Char) : List Char := s.rdropWhile rIsWhitespace

/-- Charwise model of Rust `str::to_uppercase` (the completion token is
ASCII, where per-character uppercasing agrees with Rust). -/
def mapUpper (s : List Char) : List Char := s.map Char.toUpper

/-- Model of `truncate_line` from `src/main.rs` (and its identical copy in
`src/tui.rs`): keep at most `max_chars` characters, appending `"..."`
when the input was longer. -/
def truncate_line (s : List Char) (max_chars : Nat) : List Char :=
  if s.length ≤ max_chars then s
  else s.take max_chars ++ strL "..."

/-- Split a character list at every `'\n'` (Rust `str::split('\n')`-style;
the separators are consumed, the bordering segments are kept, so the
result always has one segment more than the number of newlines). -/
def splitNl : List Char → List (List Char)
  | [] => [[]]
  | c :: rest =>
    let ls := splitNl rest
    if c = '\n' then [] :: ls
    else
      match ls with
      | [] => [[c]]
      | l :: ls' => (c :: l) :: ls'

/-- Strip one trailing `'\r'` (the `\r\n` handling of Rust `str::lines`). -/
def stripCr (l : List Char) : List Char :=
  if l.getLast? = some '\r' then l.dropLast else l

/-- Rust `str::lines`: split at `'\n'`, strip a `'\r'` left at the end of
every segment that was terminated by a `'\n'`, and do not produce a final
empty line for a trailing line terminator. -/
def rlines (s : List Char) : List (List Char) :=
  let parts := splitNl s
  let init := parts.dropLast.map stripCr
  match parts.getLast? with
  | some [] => init
  | some l => init ++ [l]
  | none => []

/-- Join segments with a separator (Rust `[..].join(sep)`). -/
def joinWith (sep : List Char) : List (List Char) → List Char
  | [] => []
  | [l] => l
  | l :: ls => l ++ sep ++ joinWith sep ls

/-- The truncation marker of `truncate` in `src/main.rs`. -/
def truncMarker : List Char := strL "[...truncated...]\n"

/-- Byte offsets (`char_indices`) of the characters of `s`, in order. -/
def charOffsets (s : List Char) : List Nat :=
  (List.range s.length).map (fun k => byteLen (s.take k))

/-- The suffix of `s` starting at the first character whose byte offset is
at least `target` (empty when no character starts at or after `target`).
This is the `char_indices().find(|&i| i >= target_start)` loop of
`truncate` in `src/main.rs`. -/
def suffixFrom : List Char → Nat → List Char
  | s, 0 => s
  | [], _ => []
  | c :: rest, target + 1 => suffixFrom rest (target + 1 - c.utf8Size)

/-- Model of `truncate` from `src/main.rs`: byte-cap truncation that keeps the
suffix, prefixed by the marker, cutting only at a character boundary. -/
def truncate (text : List Char) (max_bytes : Nat) : List Char :=
  if byteLen text ≤ max_bytes then text
  else truncMarker ++ suffixFrom text (byteLen text - max_bytes)

/-- Model of `navigator_signaled_done` from `src/main.rs`: the batch-mode
completion detector (exact match after trim, case-insensitively). -/
def navigator_signaled_done (output : List Char) : Bool :=
  let trimmed := rtrim output
  trimmed = strL "ALL_DONE" || mapUpper trimmed = strL "ALL_DONE"

/-- Model of `ToolCall` from `src/tui.rs`: an invoked capability, whose
`result_summary` is filled in when the matching result event arrives. -/
structure ToolCall where
  id : List Char
  name : List Char
  result_summary : Option (List Char)
deriving DecidableEq

/-- Model of `CriticCommandStatus` from `src/tui.rs`. -/
inductive CriticCommandStatus
  | inProgress
  | completed (exit_code : Int) (output_summary : List Char)
deriving DecidableEq

/-- Model of `CriticCommand` from `src/tui.rs`. -/
structure CriticCommand where
  command : List Char
  status : CriticCommandStatus
deriving DecidableEq

/-- Model of `ContentItem` from `src/tui.rs`: one unit of agent output. -/
inductive ContentItem
  | text (t : List Char)
  | toolCall (tc : ToolCall)
  | reasoning (t : List Char)
  | command (c : CriticCommand)
deriving DecidableEq

/-- Rust `str::contains(pat)`: `pat` occurs as a contiguous substring. -/
def containsSeq (hay pat : List Char) : Bool :=
  (List.range (hay.length + 1)).any fun i => pat.isPrefixOf (hay.drop i)

/-- Model of `critic_signaled_done` from `src/tui.rs`: the interactive-mode
completion detector over a message's items. -/
def critic_signaled_done (items : List ContentItem) : Bool :=
  items.any fun item =>
    match item with
    | .text t =>
      (rlines t).any (fun line => rtrim line = strL "ALL_DONE") ||
        containsSeq t (strL "ALL_DONE")
    | _ => false

/-! ### Prompt templates (`build_navigator_prompt` in `src/main.rs`,
`build_critic_prompt` in `src/tui.rs`) -/

/-- Fixed text before the interpolated driver output in the continuation
template shared by `build_navigator_prompt` and `build_critic_prompt`
(the two continuation templates differ only in the agent's name). -/
def contPre (agent : String) : List Char :=
  strL ("The " ++ agent ++ " has responded:\n\n---\n")

/-- Fixed text after the interpolated output in the continuation template. -/
def contPost : List Char :=
  strL "\n---\n\nReview this response. If the task is complete, respond with \"ALL_DONE\".\n"

/-- The role-framing header opening the first-invocation reviewer prompt
(identical in both files up to the agent's name). -/
def roleHeader (agent : String) : List Char :=
  strL ("ROLE: Helpful Peer\nYou are acting as a helpful peer. Your job is to evaluate the "
    ++ agent ++ "'s work for the task below.\nDo not offer to do things. Discuss, comment, and guide the "
    ++ agent ++ ".\nYour job is not to block the " ++ agent
    ++ ", but to help them make progress and point out things they may have missed.\nProgress is the goal, not perfection. We work iteratively, so we can improve incrementally.\n\n")

/-- Fixed text after the interpolated output in the first-invocation
template (batch variant, `src/main.rs`). -/
def navFirstPost : List Char :=
  strL "\n---\n\nIf the task is complete, you can end the conversation with \"ALL_DONE\".\n"

/-- Model of `build_navigator_prompt` from `src/main.rs`. -/
def build_navigator_prompt (task context : Option (List Char))
    (driver_output : List Char) (is_continuation : Bool) : List Char :=
  if is_continuation then
    contPre "driver" ++ driver_output ++ contPost
  else
    roleHeader "driver"
      ++ (match task with
          | some t => strL "## Original Task\n" ++ t ++ strL "\n\n"
          | none => [])
      ++ (match context with
          | some c => strL "## Context\n" ++ c ++ strL "\n\n"
          | none => [])
      ++ strL "## Driver's Output\n\n---\n" ++ driver_output ++ navFirstPost

/-- Model of `build_critic_prompt` from `src/tui.rs`.  Unlike the batch variant it
takes the task as a plain string (possibly empty) and has no context
section; its role paragraph has a trailing space after "guide the
maker." in the source, reproduced here. -/
def build_critic_prompt (task maker_output : List Char) (is_continuation : Bool) : List Char :=
  if is_continuation then
    contPre "maker" ++ maker_output ++ contPost
  else
    strL "ROLE: Helpful Peer\nYou are acting as a helpful peer. Your job is to evaluate the maker's work for the task below.\nDo not offer to do things. Discuss, comment, and guide the maker. \nYour job is not to block the maker, but to help them make progress and point out things they may have missed.\nProgress is the goal, not perfection. We work iteratively, so we can improve incrementally.\n\n## Original Task\n"
      ++ task
      ++ strL "\n\n## Maker's Output\n\n---\n"
      ++ maker_output
      ++ navFirstPost

/-! ### JSON values and tool-result summarization -/

/-- Model of `serde_json::Value`.  Numbers are modelled as integers
(the repository only ever reads `exit_code`-style integral numbers and
otherwise just reserializes the value); objects are association lists. -/
inductive JsonValue
  | null
  | bool (b : Bool)
  | num (n : Int)
  | str (s : List Char)
  | arr (items : List JsonValue)
  | obj (fields : List (List Char × JsonValue))

/-- Hexadecimal digit for `\uXXXX` escapes. -/
def hexDigit (n : Nat) : Char :=
  if n < 10 then Char.ofNat (48 + n) else Char.ofNat (87 + (n % 16))

/-- JSON string escaping as in `serde_json`'s compact serializer. -/
def escapeChar (c : Char) : List Char :=
  if c = '"' then strL "\\\""
  else if c = '\\' then strL "\\\\"
  else if c = '\n' then strL "\\n"
  else if c = '\t' then strL "\\t"
  else if c.val = 13 then strL "\\r"
  else if c.val = 8 then strL "\\b"
  else if c.val = 12 then strL "\\f"
  else if c.val < 32 then
    strL "\\u00" ++ [hexDigit (c.toNat / 16), hexDigit (c.toNat % 16)]
  else [c]

/-- Decimal rendering of an integer (Rust `i32`/`i64` `Display`). -/
def intToStr (i : Int) : List Char :=
  if i < 0 then '-' :: Nat.toDigits 10 i.natAbs else Nat.toDigits 10 i.natAbs

mutual

/-- Compact serialization of a `JsonValue`, modelling
`serde_json::Value::to_string`. -/
def vToString : JsonValue → List Char
  | .null => strL "null"
  | .bool true => strL "true"
  | .bool false => strL "false"
  | .num n => intToStr n
  | .str s => '"' :: s.flatMap escapeChar ++ ['"']
  | .arr items => '[' :: vArrToString items ++ [']']
  | .obj fields => '{' :: vObjToString fields ++ ['}']

/-- Comma-separated serialization of array elements. -/
def vArrToString : List JsonValue → List Char
  | [] => []
  | [v] => vToString v
  | v :: vs => vToString v ++ ',' :: vArrToString vs

/-- Comma-separated serialization of object fields. -/
def vObjToString : List (List Char × JsonValue) → List Char
  | [] => []
  | [(k, v)] => ('"' :: k.flatMap escapeChar ++ ['"', ':']) ++ vToString v
  | (k, v) :: fs => ('"' :: k.flatMap escapeChar ++ ['"', ':']) ++ vToString v ++ ',' :: vObjToString fs

end

/-- The `obj.get("type") == Some("text") → obj.get("text")` extraction in
both copies of `summarize_tool_result`. -/
def getTextField (item : JsonValue) : Option (List Char) :=
  match item with
  | .obj fields =>
    match fields.lookup (strL "type") with
    | some (.str ty) =>
      if ty = strL "text" then
        match fields.lookup (strL "text") with
        | some (.str t) => some t
        | _ => none
      else none
    | _ => none
  | _ => none

/-- Model of `summarize_tool_result` from `src/main.rs` (batch copy). -/
def summarize_tool_result (content : Option JsonValue) : List Char :=
  match content with
  | none => strL "done"
  | some (.str s) =>
    let lines := rlines s
    if lines.length ≤ 3 then truncate_line s 100
    else Nat.toDigits 10 lines.length ++ strL " lines"
  | some (.arr arr) =>
    let text_parts := arr.filterMap getTextField
    if text_parts.isEmpty then
      Nat.toDigits 10 arr.length ++ strL " items"
    else
      let combined := joinWith (strL " ") text_parts
      let lines := rlines combined
      if lines.length ≤ 3 then truncate_line combined 100
      else Nat.toDigits 10 lines.length ++ strL " lines"
  | some v => truncate_line (vToString v) 50

/-- Model of `summarize_tool_result` from `src/tui.rs` (interactive copy).  It
inlines the character-truncation, but tests the *byte* length
(`s.len()`) rather than the character count when deciding whether to
append the ellipsis. -/
def summarize_tool_result_tui (content : Option JsonValue) : List Char :=
  match content with
  | none => strL "done"
  | some (.str s) =>
    let lines := rlines s
    if lines.length ≤ 3 then
      s.take 100 ++ (if 100 < byteLen s then strL "..." else [])
    else Nat.toDigits 10 lines.length ++ strL " lines"
  | some (.arr arr) =>
    let text_parts := arr.filterMap getTextField
    if text_parts.isEmpty then
      Nat.toDigits 10 arr.length ++ strL " items"
    else
      let combined := joinWith (strL " ") text_parts
      let lines := rlines combined
      if lines.length ≤ 3 then
        combined.take 100 ++ (if 100 < byteLen combined then strL "..." else [])
      else Nat.toDigits 10 lines.length ++ strL " lines"
  | some v =>
    let s := vToString v
    s.take 50 ++ (if 50 < byteLen s then strL "..." else [])

/-- Model of `summarize_command_output` from `src/main.rs` (used for completed
critic commands in batch mode). -/
def summarize_command_output (output : Option (List Char)) : List Char :=
  match output with
  | none => []
  | some s =>
    let lines := rlines s
    if lines.length ≤ 3 then truncate_line s 100
    else Nat.toDigits 10 lines.length ++ strL " lines"

/-! ### Forwarding formatter and display renderer (`src/tui.rs`) -/

/-- The `result_summary.as_deref().unwrap_or("...")` default. -/
def resultText (tc : ToolCall) : List Char :=
  tc.result_summary.getD (strL "...")

/-- The tool-call line `"  [{name}] {summary}"` shared by
`format_message_output` and `render_items_to_lines`. -/
def toolCallLine (tc : ToolCall) : List Char :=
  strL "  [" ++ tc.name ++ strL "] " ++ truncate_line (resultText tc) 80

/-- The command status line shared by `format_message_output` and
`render_items_to_lines`. -/
def commandStatusText (cmd : CriticCommand) : List Char :=
  match cmd.status with
  | .inProgress => strL "  running: " ++ truncate_line cmd.command 60
  | .completed exit_code output_summary =>
    if output_summary.isEmpty then
      strL "  [exit " ++ intToStr exit_code ++ strL "] " ++ truncate_line cmd.command 60
    else
      strL "  [exit " ++ intToStr exit_code ++ strL "] " ++ truncate_line cmd.command 40
        ++ strL " -> " ++ truncate_line output_summary 30

/-- One iteration of the `for item in items` loop of
`format_message_output` in `src/tui.rs`, acting on the accumulated
output. -/
def fmoStep (output : List Char) (item : ContentItem) : List Char :=
  match item with
  | .text t =>
    let output :=
      if ¬ output.isEmpty ∧ output.getLast? ≠ some '\n' then output ++ ['\n'] else output
    let output := output ++ t
    if t.getLast? ≠ some '\n' then output ++ ['\n'] else output
  | .toolCall tc => output ++ toolCallLine tc ++ ['\n']
  | .reasoning t =>
    output ++ (rlines t).flatMap (fun line => strL "  thinking: " ++ truncate_line line 80 ++ ['\n'])
  | .command cmd => output ++ commandStatusText cmd ++ ['\n']

/-- Model of `format_message_output` from `src/tui.rs`: the plain text forwarded
to the other agent (final `trim_end`). -/
def format_message_output (items : List ContentItem) : List Char :=
  trimEndL (items.foldl fmoStep [])

/-- The display lines of one `ContentItem` (the loop body of
`render_items_to_lines` in `src/tui.rs`). -/
def renderItem : ContentItem → List (List Char)
  | .text t => (rlines t).map (fun line => truncate_line line 500)
  | .toolCall tc => [toolCallLine tc]
  | .reasoning t => (rlines t).map (fun line => strL "  thinking: " ++ truncate_line line 80)
  | .command cmd => [commandStatusText cmd]

/-- Model of `render_items_to_lines` from `src/tui.rs`, with styling ignored:
the text of each display line, in order. -/
def render_items_to_lines (items : List ContentItem) : List (List Char) :=
  items.flatMap renderItem

/-! ### Editor buffer operations (`src/tui.rs`) -/

/-- Model of `char_to_byte_index` from `src/tui.rs`: byte index of the
`char_idx`-th character of `s`, or `s.len()` when `char_idx` is at or
beyond the end (`char_indices().nth(..).unwrap_or(s.len())`). -/
def char_to_byte_index : List Char → Nat → Nat
  | [], _ => 0
  | _ :: _, 0 => 0
  | c :: rest, i + 1 => c.utf8Size + char_to_byte_index rest i

/-- The character position of UTF-8 byte offset `b` in `s` (the number
of whole characters before it), used to interpret a byte index. -/
def charIdxOfByte : List Char → Nat → Nat
  | [], _ => 0
  | c :: rest, b => if c.utf8Size ≤ b then 1 + charIdxOfByte rest (b - c.utf8Size) else 0

/-- Model of `str::is_char_boundary`: `b` is `0`, the total byte length, or the
starting byte offset of some character. -/
def isCharBoundary (s : List Char) (b : Nat) : Bool :=
  (List.range (s.length + 1)).any fun k => byteLen (s.take k) = b

/-- Insert a character at character position `k`. -/
def insertAt (s : List Char) (k : Nat) (c : Char) : List Char :=
  s.take k ++ c :: s.drop k

/-- Remove the character at character position `k`. -/
def removeAt (s : List Char) (k : Nat) : List Char :=
  s.take k ++ s.drop (k + 1)

/-- Rust `String::insert(byte_idx, ch)`: panics (here `none`) unless
`byte_idx` is a character boundary. -/
def rStringInsert (s : List Char) (byte_idx : Nat) (ch : Char) : Option (List Char) :=
  if isCharBoundary s byte_idx then some (insertAt s (charIdxOfByte s byte_idx) ch)
  else none

/-- Rust `String::insert_str(byte_idx, t)`: panics (here `none`) unless
`byte_idx` is a character boundary. -/
def rStringInsertStr (s : List Char) (byte_idx : Nat) (t : List Char) : Option (List Char) :=
  if isCharBoundary s byte_idx then
    let k := charIdxOfByte s byte_idx
    some (s.take k ++ t ++ s.drop k)
  else none

/-- Rust `String::remove(byte_idx)`: panics (here `none`) unless
`byte_idx` is a character boundary strictly inside the string. -/
def rStringRemove (s : List Char) (byte_idx : Nat) : Option (List Char) :=
  if isCharBoundary s byte_idx ∧ byte_idx < byteLen s then
    some (removeAt s (charIdxOfByte s byte_idx))
  else none

/-! ### Interactive application state (`src/tui.rs`) -/

/-- Model of `Message` from `src/tui.rs`. -/
structure Message where
  role : List Char
  turn : Nat
  items : List ContentItem
deriving DecidableEq

/-- Model of `AppState` from `src/tui.rs`. -/
inductive AppState
  | running
  | paused
  | editing
  | waitingForTask
  | finished
deriving DecidableEq

/-- Model of `App` from `src/tui.rs` (the `u16` scroll fields are modelled as
`Nat`; they play no role in the verified claims). -/
structure App where
  messages : List Message
  state : AppState
  scroll : Nat
  total_lines : Nat
  turn : Nat
  max_turns : Nat
  edit_buffer : List Char
  edit_cursor : Nat
  status_message : List Char
  task : Option (List Char)
  request_in_flight : Bool
  editing_message_index : Option Nat
  streaming_role : Option (List Char)
  streaming_items : List ContentItem
  first_maker_call_made : Bool
  first_critic_call_made : Bool
deriving DecidableEq

/-- Model of `App::update_streaming_tool_result` from `src/tui.rs`: set the
result summary of the first pending tool call with the matching id
(the loop `break`s at the first match). -/
def update_streaming_tool_result :
    List ContentItem → List Char → List Char → List ContentItem
  | [], _, _ => []
  | .toolCall tc :: rest, tool_use_id, summary =>
    if tc.id = tool_use_id then
      .toolCall { tc with result_summary := some summary } :: rest
    else .toolCall tc :: update_streaming_tool_result rest tool_use_id summary
  | item :: rest, tool_use_id, summary =>
    item :: update_streaming_tool_result rest tool_use_id summary

/-- A request to start an agent invocation on a worker thread (the
`thread::spawn(move || run_*_streaming(..))` calls of `run_app`). -/
inductive SpawnReq
  | maker (prompt : List Char) (is_continuation : Bool)
  | critic (prompt : List Char) (is_continuation : Bool)
deriving DecidableEq

/-- Replace the items of the `idx`-th message (the
`app.messages[idx].items = vec![..]` assignment of the edit handler). -/
def setItemsAt : List Message → Nat → List ContentItem → List Message
  | [], _, _ => []
  | m :: rest, 0, its => { m with items := its } :: rest
  | m :: rest, idx + 1, its => m :: setItemsAt rest idx its

/-- The `KeyCode::Enter` arm of the `AppState::WaitingForTask` key
handling in `run_app` (`src/tui.rs`): submit the task and start the
first maker invocation, or do nothing when the edit buffer is empty. -/
def handle_enter_waiting (app : App) (resume_session : Bool) : App × Option SpawnReq :=
  if app.edit_buffer.isEmpty then (app, none)
  else
    let task := app.edit_buffer
    let is_continuation := if app.first_maker_call_made then true else resume_session
    ({ app with
        task := some task
        edit_buffer := []
        edit_cursor := 0
        state := .running
        status_message := strL "Running maker..."
        request_in_flight := true
        first_maker_call_made := true
        streaming_role := some (strL "maker")
        streaming_items := [] },
      some (.maker task is_continuation))

/-- The `KeyCode::Enter` arm of the `AppState::Editing` key handling in
`run_app` (`src/tui.rs`): replace the edited message and forward the
edited text to the other agent, or do nothing when the edit buffer is
empty. -/
def handle_enter_editing (app : App) (resume_session : Bool) (max_forward_bytes : Nat) :
    App × Option SpawnReq :=
  if app.edit_buffer.isEmpty then (app, none)
  else
    let edited := app.edit_buffer
    let messages :=
      match app.editing_message_index with
      | some idx =>
        if idx < app.messages.length then setItemsAt app.messages idx [.text edited]
        else app.messages
      | none => app.messages
    let app1 := { app with
        messages := messages
        edit_buffer := []
        edit_cursor := 0
        editing_message_index := none
        state := .running
        request_in_flight := true }
    let last_role := app1.messages.getLast?.map Message.role
    match last_role with
    | some r =>
      if r = strL "maker" then
        let is_continuation := if app1.first_critic_call_made then true else resume_session
        let task := app1.task.getD []
        let critic_prompt := build_critic_prompt task edited is_continuation
        let forward_text := truncate critic_prompt max_forward_bytes
        ({ app1 with
            status_message := strL "Running critic with edited message..."
            first_critic_call_made := true
            streaming_role := some (strL "critic")
            streaming_items := [] },
          some (.critic forward_text is_continuation))
      else if r = strL "critic" then
        let forward_text := truncate edited max_forward_bytes
        ({ app1 with
            status_message := strL "Running maker with edited message..."
            streaming_role := some (strL "maker")
            streaming_items := [] },
          some (.maker forward_text true))
      else (app1, none)
    | none =>
      let is_continuation := if app1.first_critic_call_made then true else resume_session
      let task := app1.task.getD []
      let critic_prompt := build_critic_prompt task edited is_continuation
      let forward_text := truncate critic_prompt max_forward_bytes
      ({ app1 with
          status_message := strL "Running critic with edited message..."
          first_critic_call_made := true
          streaming_role := some (strL "critic")
          streaming_items := [] },
        some (.critic forward_text is_continuation))

/-- The `AgentResult::CriticDone` arm of `run_app` (`src/tui.rs`):
commit the streamed critic message, advance the turn counter, and
either finish (completion signal or turn cap) or start the next maker
invocation. -/
def handle_critic_done (app : App) (max_forward_bytes : Nat) : App × Option SpawnReq :=
  let app := { app with request_in_flight := false }
  match app.streaming_role with
  | none => (app, none)
  | some role =>
    let items := app.streaming_items
    let app := { app with
        streaming_role := none
        streaming_items := []
        messages := app.messages ++ [{ role := role, turn := app.turn, items := items : Message }]
        turn := app.turn + 1 }
    if critic_signaled_done items then
      ({ app with
          state := .finished
          status_message := strL "Critic signaled ALL_DONE. Press 'q' to quit." }, none)
    else if 0 < app.max_turns ∧ app.max_turns ≤ app.turn then
      ({ app with
          state := .finished
          status_message := strL "Finished after " ++ Nat.toDigits 10 app.turn
            ++ strL " turns. Press 'q' to quit." }, none)
    else if app.state = .running then
      let formatted := format_message_output items
      let forward_text := truncate formatted max_forward_bytes
      ({ app with
          status_message := strL "Running maker..."
          request_in_flight := true
          streaming_role := some (strL "maker")
          streaming_items := [] },
        some (.maker forward_text true))
    else
      ({ app with
          status_message := strL "Paused. Press 'c' to continue, 'q' to quit." }, none)

/-! ### Relay-loop control (`run_batch` in `src/main.rs`, the critic
rounds of `run_app` in `src/tui.rs`) -/

/-- Why the relay loop stopped. -/
inductive StopReason
  | signaled
  | capReached
deriving DecidableEq

/-- The `loop` of `run_batch` (`src/main.rs`), with the agent
invocations abstracted by the sequence `navOuts` of navigator outputs
(the driver outputs do not influence control flow).  Arguments: fuel,
current `turn` counter, navigator invocations completed so far.
Returns `none` when the loop is still running after `fuel` iterations,
otherwise the final `turn` value, the number of completed navigator
invocations, and the stop reason. -/
def run_batch_loop (max_turns : Nat) (navOuts : Nat → List Char) :
    Nat → Nat → Nat → Option (Nat × Nat × StopReason)
  | 0, _, _ => none
  | fuel + 1, turn, navCount =>
    let navCount := navCount + 1
    if navigator_signaled_done (navOuts turn) then some (turn, navCount, .signaled)
    else
      let turn' := turn + 1
      if 0 < max_turns ∧ max_turns ≤ turn' then some (turn', navCount, .capReached)
      else run_batch_loop max_turns navOuts fuel turn' navCount

/-- The app state at the moment a critic invocation completes: the
streaming buffer holds that invocation's items (matching what `run_app`
set up when it started the critic). -/
def criticRoundInput (app : App) (outs : Nat → List ContentItem) : App :=
  { app with
      streaming_role := some (strL "critic")
      streaming_items := outs app.turn
      request_in_flight := true }

/-- Iterated `CriticDone` handling of `run_app`: each round streams the
items `outs k` of the `k`-th critic invocation (0-based) and applies
`handle_critic_done`; the maker rounds in between do not affect the
turn accounting.  Returns the final turn counter and stop reason when
the session finishes within `fuel` rounds. -/
def run_critic_rounds (max_forward_bytes : Nat) (outs : Nat → List ContentItem) :
    Nat → App → Option (Nat × StopReason)
  | 0, _ => none
  | fuel + 1, app =>
    let res := handle_critic_done (criticRoundInput app outs) max_forward_bytes
    if res.1.state = .finished then
      some (res.1.turn, if critic_signaled_done (outs app.turn) then .signaled else .capReached)
    else run_critic_rounds max_forward_bytes outs fuel res.1

/-! ### Empty-prompt gates (`src/main.rs`, `src/tui.rs`) -/

/-- Outcome of the prompt precondition check at the top of each agent
entry point: either the invocation is rejected with an error message
before any child process is spawned, or the function proceeds to
spawn. -/
inductive SpawnGate
  | rejected (msg : List Char)
  | proceed
deriving DecidableEq

/-- The `prompt.trim().is_empty()` gate of `run_driver` (`src/main.rs`). -/
def run_driver_gate (prompt : List Char) : SpawnGate :=
  if (rtrim prompt).isEmpty then .rejected (strL "Cannot run driver with empty prompt")
  else .proceed

/-- The `prompt.trim().is_empty()` gate of `run_navigator` (`src/main.rs`). -/
def run_navigator_gate (prompt : List Char) : SpawnGate :=
  if (rtrim prompt).isEmpty then .rejected (strL "Cannot run navigator with empty prompt")
  else .proceed

/-- The `prompt.trim().is_empty()` gate of `run_maker_streaming` (`src/tui.rs`). -/
def run_maker_streaming_gate (prompt : List Char) : SpawnGate :=
  if (rtrim prompt).isEmpty then .rejected (strL "Cannot run maker with empty prompt")
  else .proceed

/-- The `prompt.trim().is_empty()` gate of `run_critic_streaming` (`src/tui.rs`). -/
def run_critic_streaming_gate (prompt : List Char) : SpawnGate :=
  if (rtrim prompt).isEmpty then .rejected (strL "Cannot run critic with empty prompt")
  else .proceed

/-- A concrete `App` value with an empty edit buffer (for the C10 witness). -/
def emptyBufferApp : App :=
  { messages := [], state := .waitingForTask, scroll := 0, total_lines := 0, turn := 0,
    max_turns := 10, edit_buffer := [], edit_cursor := 0, status_message := [],
    task := none, request_in_flight := false, editing_message_index := none,
    streaming_role := none, streaming_items := [], first_maker_call_made := false,
    first_critic_call_made := false }

/-- The full fixed text before the interpolated driver output in the
first-invocation batch template (a function of task and context only). -/
def navFirstPre (task context : Option (List Char)) : List Char :=
  roleHeader "driver"
    ++ (match task with
        | some t => strL "## Original Task\n" ++ t ++ strL "\n\n"
        | none => [])
    ++ (match context with
        | some c => strL "## Context\n" ++ c ++ strL "\n\n"
        | none => [])
    ++ strL "## Driver's Output\n\n---\n"

/-- The full fixed text before the interpolated maker output in the
first-invocation interactive template (a function of the task only). -/
def criticFirstPre (task : List Char) : List Char :=
  strL "ROLE: Helpful Peer\nYou are acting as a helpful peer. Your job is to evaluate the maker's work for the task below.\nDo not offer to do things. Discuss, comment, and guide the maker. \nYour job is not to block the maker, but to help them make progress and point out things they may have missed.\nProgress is the goal, not perfection. We work iteratively, so we can improve incrementally.\n\n## Original Task\n"
    ++ task
    ++ strL "\n\n## Maker's Output\n\n---\n"

/-- The result-summarization contract, written from the spec's words
(§4.1): absent → `"done"`; a string of ≤3 lines → the string,
character-truncated to 100 characters with an ellipsis marker when
longer (the 50-character rule of the final bullet is read the same
way); a string of >3 lines → `"<N> lines"`; a list with `type:"text"`
objects → the joined text under the same rule; a list without →
`"<N> items"`; any other value → its textual form truncated to 50
characters. -/
def spec_summarize (content : Option JsonValue) : List Char :=
  match content with
  | none => strL "done"
  | some (.str s) =>
    if (rlines s).length ≤ 3 then
      if s.length ≤ 100 then s else s.take 100 ++ strL "..."
    else Nat.toDigits 10 (rlines s).length ++ strL " lines"
  | some (.arr a) =>
    let texts := a.filterMap getTextField
    if texts.isEmpty then Nat.toDigits 10 a.length ++ strL " items"
    else
      let joined := joinWith (strL " ") texts
      if (rlines joined).length ≤ 3 then
        if joined.length ≤ 100 then joined else joined.take 100 ++ strL "..."
      else Nat.toDigits 10 (rlines joined).length ++ strL " lines"
  | some v =>
    if (vToString v).length ≤ 50 then vToString v
    else (vToString v).take 50 ++ strL "..."

/-- The summarization contract the interactive copy actually satisfies:
identical to `spec_summarize` except that the ellipsis marker is
appended exactly when the *byte* length exceeds the threshold (100 for
strings and joined text, 50 for other values), while the kept prefix is
still the first 100 (resp. 50) characters. -/
def spec_summarize_bytes (content : Option JsonValue) : List Char :=
  match content with
  | none => strL "done"
  | some (.str s) =>
    if (rlines s).length ≤ 3 then
      s.take 100 ++ (if 100 < byteLen s then strL "..." else [])
    else Nat.toDigits 10 (rlines s).length ++ strL " lines"
  | some (.arr a) =>
    let texts := a.filterMap getTextField
    if texts.isEmpty then Nat.toDigits 10 a.length ++ strL " items"
    else
      let joined := joinWith (strL " ") texts
      if (rlines joined).length ≤ 3 then
        joined.take 100 ++ (if 100 < byteLen joined then strL "..." else [])
      else Nat.toDigits 10 (rlines joined).length ++ strL " lines"
  | some v =>
    (vToString v).take 50 ++ (if 50 < byteLen (vToString v) then strL "..." else [])

/-- A concrete running `App` (for the C4 witness). -/
def runningApp : App :=
  { messages := [], state := .running, scroll := 0, total_lines := 0, turn := 0,
    max_turns := 2, edit_buffer := [], edit_cursor := 0, status_message := [],
    task := some (strL "demo"), request_in_flight := false, editing_message_index := none,
    streaming_role := none, streaming_items := [], first_maker_call_made := true,
    first_critic_call_made := false }

/-- Drop a final empty segment (the trailing-terminator rule of
`str::lines`), on the raw `splitNl` segments. -/
def dropLastEmpty (ps : List (List Char)) : List (List Char) :=
  if ps.getLast? = some [] then ps.dropLast else ps

/-- The concatenation of the per-item output of `format_message_output`
before the final `trim_end`. -/
def fmoChunks : List ContentItem → List Char
  | [] => []
  | it :: rest => fmoStep [] it ++ fmoChunks rest

/-- The text chunk of `format_message_output`: the item's text plus a
newline unless it already ends in one. -/
def fmtText (t : List Char) : List Char :=
  if t.getLast? ≠ some '\n' then t ++ ['\n'] else t

/-- A concrete message with all four item kinds (for the C2 witness). -/
def demoItems : List ContentItem :=
  [ContentItem.text (strL "hello\nworld"),
   ContentItem.toolCall { id := strL "t1", name := strL "Bash", result_summary := none },
   ContentItem.reasoning (strL "think1\nthink2"),
   ContentItem.command { command := strL "ls -la", status := .completed 0 (strL "3 lines") }]

/-! ### Supporting lemmas -/

theorem byteLen_nil : byteLen [] = 0 := rfl

theorem byteLen_cons (c : Char) (s : List Char) :
    byteLen (c :: s) = c.utf8Size + byteLen s := by
  simp [byteLen]

theorem byteLen_append (s t : List Char) :
    byteLen (s ++ t) = byteLen s + byteLen t := by
  simp [byteLen]

theorem suffixFrom_isSuffix (s : List Char) (t : Nat) : suffixFrom s t <:+ s := by
  induction s generalizing t with
  | nil => cases t <;> simp [suffixFrom]
  | cons c rest ih =>
    cases t with
    | zero => simp [suffixFrom]
    | succ t =>
      simp only [suffixFrom]
      exact (ih _).trans (List.suffix_cons c rest)

theorem byteLen_suffixFrom_add_le (s : List Char) (t : Nat) (h : t ≤ byteLen s) :
    byteLen (suffixFrom s t) + t ≤ byteLen s := by
  induction s generalizing t with
  | nil => cases t <;> simp_all [suffixFrom, byteLen_nil]
  | cons c rest ih =>
    cases t with
    | zero => simp [suffixFrom]
    | succ t =>
      have hsz := Char.utf8Size_pos c
      rw [byteLen_cons] at h ⊢
      simp only [suffixFrom]
      by_cases hc : c.utf8Size ≤ t + 1
      · have h' : t + 1 - c.utf8Size ≤ byteLen rest := by omega
        have := ih (t + 1 - c.utf8Size) h'
        omega
      · have h0 : t + 1 - c.utf8Size = 0 := by omega
        rw [h0]
        simp only [suffixFrom]
        omega

theorem suffix_suffixFrom (p q : List Char) (t : Nat) (h : t ≤ byteLen p) :
    q <:+ suffixFrom (p ++ q) t := by
  induction p generalizing t with
  | nil =>
    rw [byteLen_nil] at h
    interval_cases t
    simp [suffixFrom]
  | cons c p' ih =>
    cases t with
    | zero =>
      simp only [suffixFrom, List.cons_append]
      exact (List.suffix_append p' q).trans (List.suffix_cons c (p' ++ q))
    | succ t =>
      rw [byteLen_cons] at h
      simp only [List.cons_append, suffixFrom]
      exact ih _ (by omega)

/-- Claim C3: `truncate` satisfies its full contract.  A string within
the byte cap is returned unchanged; one over the cap is returned as the
marker followed by a true character-suffix of the input (so no
multi-byte character is ever split and the result is valid text), the
total byte length is at most the marker plus the cap, and the kept tail
starts at byte index `L - cap` rounded up to the next character
boundary (it is the longest character-suffix whose start offset is at
least `L - cap`). -/
theorem truncate_contract (text : List Char) (cap : Nat) :
    (byteLen text ≤ cap → truncate text cap = text) ∧
    (cap < byteLen text →
      truncate text cap = truncMarker ++ suffixFrom text (byteLen text - cap) ∧
      byteLen (truncate text cap) ≤ byteLen truncMarker + cap ∧
      suffixFrom text (byteLen text - cap) <:+ text ∧
      byteLen (suffixFrom text (byteLen text - cap)) ≤ cap ∧
      (∀ p q, text = p ++ q → byteLen text - cap ≤ byteLen p →
        q <:+ suffixFrom text (byteLen text - cap))) := by
  constructor
  · intro h
    simp [truncate, h]
  · intro h
    have heq : truncate text cap = truncMarker ++ suffixFrom text (byteLen text - cap) := by
      simp [truncate, Nat.not_le.mpr h]
    have htail : byteLen (suffixFrom text (byteLen text - cap)) ≤ cap := by
      have := byteLen_suffixFrom_add_le text (byteLen text - cap) (Nat.sub_le _ _)
      omega
    refine ⟨heq, ?_, suffixFrom_isSuffix text _, htail, ?_⟩
    · rw [heq, byteLen_append]
      omega
    · intro p q hpq hlen
      rw [hpq]
      exact suffix_suffixFrom p q _ (by rw [hpq] at hlen; exact hlen)

/-- Witness for C3 at concrete inputs: a short string is unchanged, an
over-cap string keeps the marker plus the byte-suffix. -/
theorem truncate_contract_witness :
    truncate (strL "Hello") 5 = strL "Hello" ∧
    truncate (strL "abcdef") 3 = truncMarker ++ suffixFrom (strL "abcdef") 3 := by
  constructor
  · exact (truncate_contract (strL "Hello") 5).1 (by decide)
  · exact ((truncate_contract (strL "abcdef") 3).2 (by decide)).1

theorem rtrim_eq_nil_of_all_ws (p : List Char) (h : ∀ c ∈ p, rIsWhitespace c) :
    rtrim p = [] := by
  unfold rtrim
  have hdrop : p.dropWhile rIsWhitespace = [] := by
    rw [List.dropWhile_eq_nil_iff]
    exact fun c hc => h c hc
  rw [hdrop]
  simp [List.rdropWhile]

/-- Claim C8: every whitespace-only (in particular empty) prompt is
rejected by the precondition gate at the top of each agent entry point
(`run_driver`, `run_navigator`, `run_maker_streaming`,
`run_critic_streaming`), so no child process is spawned for it. -/
theorem empty_prompt_rejected (prompt : List Char)
    (h : ∀ c ∈ prompt, rIsWhitespace c) :
    run_driver_gate prompt = .rejected (strL "Cannot run driver with empty prompt") ∧
    run_navigator_gate prompt = .rejected (strL "Cannot run navigator with empty prompt") ∧
    run_maker_streaming_gate prompt = .rejected (strL "Cannot run maker with empty prompt") ∧
    run_critic_streaming_gate prompt = .rejected (strL "Cannot run critic with empty prompt") := by
  have h1 : rtrim prompt = [] := rtrim_eq_nil_of_all_ws prompt h
  refine ⟨?_, ?_, ?_, ?_⟩ <;>
    simp [run_driver_gate, run_navigator_gate, run_maker_streaming_gate,
      run_critic_streaming_gate, h1]

/-- Witness for C8 at a concrete whitespace-only prompt. -/
theorem empty_prompt_rejected_witness :
    run_driver_gate (strL " \t\n ") = .rejected (strL "Cannot run driver with empty prompt") ∧
    run_critic_streaming_gate (strL "") = .rejected (strL "Cannot run critic with empty prompt") :=
  ⟨(empty_prompt_rejected (strL " \t\n ") (by decide)).1,
   (empty_prompt_rejected (strL "") (by decide)).2.2.2⟩

/-- Claim C7: applying a tool-result update writes the summary into the
tool call whose id matches `tool_use_id` (the first such item, which is
the only one when ids are unique) and leaves every other buffer item,
including every other pending tool call, unchanged. -/
theorem update_tool_result_frame (items : List ContentItem) (i : Nat) (tc : ToolCall)
    (tool_use_id summary : List Char)
    (hget : items[i]? = some (.toolCall tc))
    (hid : tc.id = tool_use_id)
    (hfirst : ∀ j (tc' : ToolCall), j < i → items[j]? = some (.toolCall tc') →
      tc'.id ≠ tool_use_id) :
    update_streaming_tool_result items tool_use_id summary =
      items.set i (.toolCall { tc with result_summary := some summary }) ∧
    ∀ j, j ≠ i →
      (update_streaming_tool_result items tool_use_id summary)[j]? = items[j]? := by
  have hmain : update_streaming_tool_result items tool_use_id summary =
      items.set i (.toolCall { tc with result_summary := some summary }) := by
    induction items generalizing i with
    | nil => simp at hget
    | cons item rest ih =>
      cases i with
      | zero =>
        simp only [List.getElem?_cons_zero, Option.some.injEq] at hget
        subst hget
        simp [update_streaming_tool_result, hid]
      | succ i =>
        have hrest : rest[i]? = some (.toolCall tc) := by simpa using hget
        have hfirst' : ∀ j (tc' : ToolCall), j < i → rest[j]? = some (.toolCall tc') →
            tc'.id ≠ tool_use_id := by
          intro j tc' hj hg
          exact hfirst (j + 1) tc' (by omega) (by simpa using hg)
        cases item with
        | toolCall tc' =>
          have hne : tc'.id ≠ tool_use_id := hfirst 0 tc' (Nat.succ_pos i) (by simp)
          simp only [update_streaming_tool_result, if_neg hne, List.set_cons_succ]
          rw [ih i hrest hfirst']
        | text t =>
          simp only [update_streaming_tool_result, List.set_cons_succ]
          rw [ih i hrest hfirst']
        | reasoning t =>
          simp only [update_streaming_tool_result, List.set_cons_succ]
          rw [ih i hrest hfirst']
        | command cmd =>
          simp only [update_streaming_tool_result, List.set_cons_succ]
          rw [ih i hrest hfirst']
  refine ⟨hmain, fun j hj => ?_⟩
  rw [hmain]
  exact List.getElem?_set_ne (fun h => hj h.symm)

/-- Witness for C7: updating the second of two pending tool calls by id
leaves the first untouched. -/
theorem update_tool_result_frame_witness :
    update_streaming_tool_result
      [.toolCall { id := strL "a", name := strL "Read", result_summary := none },
       .toolCall { id := strL "b", name := strL "Bash", result_summary := none }]
      (strL "b") (strL "ok")
      = [.toolCall { id := strL "a", name := strL "Read", result_summary := none },
         .toolCall { id := strL "b", name := strL "Bash", result_summary := some (strL "ok") }] := by
  have h := (update_tool_result_frame
      [.toolCall { id := strL "a", name := strL "Read", result_summary := none },
       .toolCall { id := strL "b", name := strL "Bash", result_summary := none }]
      1 { id := strL "b", name := strL "Bash", result_summary := none }
      (strL "b") (strL "ok") (by decide) (by decide)
      (fun j tc' hj hg => by
        have hj0 : j = 0 := by omega
        subst hj0
        simp only [List.getElem?_cons_zero, Option.some.injEq,
          ContentItem.toolCall.injEq] at hg
        subst hg
        decide)).1
  simpa using h

theorem char_to_byte_index_eq (s : List Char) (i : Nat) :
    char_to_byte_index s i = byteLen (s.take i) := by
  induction s generalizing i with
  | nil => cases i <;> simp [char_to_byte_index, byteLen_nil]
  | cons c rest ih =>
    cases i with
    | zero => simp [char_to_byte_index, byteLen_nil]
    | succ i =>
      simp only [char_to_byte_index, List.take_succ_cons, byteLen_cons, ih]

theorem charIdxOfByte_byteLen_take (s : List Char) (k : Nat) :
    charIdxOfByte s (byteLen (s.take k)) = min k s.length := by
  induction s generalizing k with
  | nil => simp [charIdxOfByte]
  | cons c rest ih =>
    cases k with
    | zero =>
      have hpos := Char.utf8Size_pos c
      simp only [List.take_zero, byteLen_nil, charIdxOfByte]
      rw [if_neg (by omega)]
      simp
    | succ k =>
      simp only [List.take_succ_cons, byteLen_cons, charIdxOfByte]
      rw [if_pos (by omega), Nat.add_sub_cancel_left, ih]
      simp only [List.length_cons]
      omega

theorem isCharBoundary_take (s : List Char) (k : Nat) (hk : k ≤ s.length) :
    isCharBoundary s (byteLen (s.take k)) = true := by
  unfold isCharBoundary
  rw [List.any_eq_true]
  refine ⟨k, ?_, by simp⟩
  rw [List.mem_range]
  omega

theorem byteLen_take_lt (s : List Char) (k : Nat) (hk : k < s.length) :
    byteLen (s.take k) < byteLen s := by
  conv_rhs => rw [← List.take_append_drop k s]
  rw [byteLen_append]
  cases hd : s.drop k with
  | nil =>
    have : s.length ≤ k := by
      have := congrArg List.length hd
      simp at this
      omega
    omega
  | cons c rest =>
    rw [byteLen_cons]
    have := Char.utf8Size_pos c
    omega

/-- Claim C9: `char_to_byte_index` always returns a character-boundary
byte index (the total length once the character index is at or past the
end), so with the cursor invariant `cursor ≤ length` the editor's
character insertion, string paste and backspace removal never hit the
panicking cases of the byte-indexed `String` operations, and each
produces exactly the expected whole-character edit (hence the buffer
stays a valid character sequence). -/
theorem editor_ops_safe :
    (∀ (s : List Char) (i : Nat),
      isCharBoundary s (char_to_byte_index s i) = true ∧
      (s.length ≤ i → char_to_byte_index s i = byteLen s)) ∧
    (∀ (s : List Char) (cursor : Nat) (c : Char), cursor ≤ s.length →
      rStringInsert s (char_to_byte_index s cursor) c = some (insertAt s cursor c)) ∧
    (∀ (s t : List Char) (cursor : Nat), cursor ≤ s.length →
      rStringInsertStr s (char_to_byte_index s cursor) t =
        some (s.take cursor ++ t ++ s.drop cursor)) ∧
    (∀ (s : List Char) (cursor : Nat), 0 < cursor → cursor ≤ s.length →
      rStringRemove s (char_to_byte_index s (cursor - 1)) =
        some (removeAt s (cursor - 1))) := by
  have hbound : ∀ (s : List Char) (i : Nat),
      isCharBoundary s (char_to_byte_index s i) = true := by
    intro s i
    rw [char_to_byte_index_eq]
    by_cases h : i ≤ s.length
    · exact isCharBoundary_take s i h
    · rw [List.take_of_length_le (by omega)]
      have := isCharBoundary_take s s.length (Nat.le_refl _)
      rwa [List.take_length] at this
  refine ⟨fun s i => ⟨hbound s i, fun h => ?_⟩, fun s cursor c h => ?_, fun s t cursor h => ?_,
    fun s cursor h0 h => ?_⟩
  · rw [char_to_byte_index_eq, List.take_of_length_le h]
  · rw [char_to_byte_index_eq, rStringInsert, if_pos (isCharBoundary_take s cursor h),
      charIdxOfByte_byteLen_take]
    rw [Nat.min_eq_left h]
  · rw [char_to_byte_index_eq, rStringInsertStr, if_pos (isCharBoundary_take s cursor h),
      charIdxOfByte_byteLen_take]
    rw [Nat.min_eq_left h]
  · have h1 : cursor - 1 ≤ s.length := by omega
    have h2 : cursor - 1 < s.length := by omega
    rw [char_to_byte_index_eq, rStringRemove,
      if_pos ⟨isCharBoundary_take s (cursor - 1) h1, byteLen_take_lt s (cursor - 1) h2⟩,
      charIdxOfByte_byteLen_take]
    rw [Nat.min_eq_left h1]

/-- Witness for C9: inserting, pasting and backspacing around a
multi-byte character at concrete cursor positions. -/
theorem editor_ops_safe_witness :
    rStringInsert (strL "a€b") (char_to_byte_index (strL "a€b") 2) 'X'
      = some (insertAt (strL "a€b") 2 'X') ∧
    rStringInsertStr (strL "a€b") (char_to_byte_index (strL "a€b") 1) (strL "xy")
      = some ((strL "a€b").take 1 ++ strL "xy" ++ (strL "a€b").drop 1) ∧
    rStringRemove (strL "a€b") (char_to_byte_index (strL "a€b") (2 - 1))
      = some (removeAt (strL "a€b") (2 - 1)) :=
  ⟨editor_ops_safe.2.1 (strL "a€b") 2 'X' (by decide),
   editor_ops_safe.2.2.1 (strL "a€b") (strL "xy") 1 (by decide),
   editor_ops_safe.2.2.2 (strL "a€b") 2 (by decide) (by decide)⟩

/-- Claim C10: pressing Enter with an empty edit buffer is a no-op:
in `WaitingForTask` it starts no invocation and changes no `App` field,
and in `Editing` it replaces no message, stays in `Editing`, and
changes no `App` field. -/
theorem enter_empty_buffer_noop (app : App) (resume_session : Bool)
    (max_forward_bytes : Nat) (h : app.edit_buffer = []) :
    handle_enter_waiting app resume_session = (app, none) ∧
    handle_enter_editing app resume_session max_forward_bytes = (app, none) := by
  constructor
  · rw [handle_enter_waiting, if_pos (by simp [h])]
  · rw [handle_enter_editing, if_pos (by simp [h])]

/-- Witness for C10 at a concrete `App` with an empty edit buffer. -/
theorem enter_empty_buffer_noop_witness :
    handle_enter_waiting emptyBufferApp true = (emptyBufferApp, none) ∧
    handle_enter_editing emptyBufferApp true 100000 = (emptyBufferApp, none) :=
  enter_empty_buffer_noop emptyBufferApp true 100000 rfl

theorem toUpper_eq_self_of_ws (c : Char) (h : rIsWhitespace c = true) :
    Char.toUpper c = c := by
  have hb : c.toNat ≤ 32 ∨ 132 < c.toNat := by
    simp only [rIsWhitespace, Bool.or_eq_true, Bool.and_eq_true, decide_eq_true_eq] at h
    rcases h with
      ((((((((((((((h|h)|h)|h)|h)|h)|h)|h)|h)|⟨h1,h2⟩)|h)|h)|h)|h)|h)
    all_goals
      first
      | (simp only [Char.toNat, h]; decide)
      | (right
         have h2 : (8192 : Nat) ≤ c.val.toNat := h1
         simp only [Char.toNat]
         omega)
  rw [Char.toUpper]
  exact if_neg (by omega)

theorem rtrim_within (s : List Char) : rtrim s <:+: s :=
  ( List.rdropWhile_prefix _ _).isInfix.trans (List.dropWhile_suffix _).isInfix

theorem casing_trim_facts (w : List Char) (hw : mapUpper w = strL "ALL_DONE") :
    w.dropWhile rIsWhitespace = w ∧ w.rdropWhile rIsWhitespace = w ∧ w ≠ [] := by
  obtain ⟨c0, w', rfl⟩ : ∃ c0 w', w = c0 :: w' := by
    cases w with
    | nil => simp [mapUpper, strL] at hw
    | cons a b => exact ⟨a, b, rfl⟩
  have hup0 : Char.toUpper c0 = 'A' := by
    have := congrArg List.head? hw
    simpa [mapUpper, strL] using this
  have hws0 : rIsWhitespace c0 = false := by
    by_contra hws
    rw [Bool.not_eq_false] at hws
    have h2 := toUpper_eq_self_of_ws c0 hws
    rw [h2] at hup0
    exact absurd (hup0 ▸ hws) (by decide)
  have hnn : (c0 :: w') ≠ [] := by simp
  have hlastE : Char.toUpper ((c0 :: w').getLast hnn) = 'E' := by
    have h3 := congrArg List.getLast? hw
    rw [mapUpper, List.getLast?_map, List.getLast?_eq_getLast _ hnn] at h3
    have h4 : (strL "ALL_DONE").getLast? = some 'E' := by decide
    rw [h4] at h3
    simpa using h3
  have hwsl : rIsWhitespace ((c0 :: w').getLast hnn) = false := by
    by_contra hws
    rw [Bool.not_eq_false] at hws
    have h2 := toUpper_eq_self_of_ws _ hws
    rw [h2] at hlastE
    exact absurd (hlastE ▸ hws) (by decide)
  refine ⟨?_, ?_, hnn⟩
  · rw [List.dropWhile_cons, if_neg (by simp [hws0])]
  · exact List.rdropWhile_eq_self_iff.mpr (fun hl => by simp [hwsl])

theorem rdropWhile_append_all {p : Char → Bool} (l₁ l₂ : List Char)
    (h : ∀ x ∈ l₂, p x = true) :
    (l₁ ++ l₂).rdropWhile p = l₁.rdropWhile p := by
  rw [List.rdropWhile, List.rdropWhile, List.reverse_append,
    List.dropWhile_append_of_pos (fun a ha => h a (List.mem_reverse.mp ha))]

theorem rtrim_padded (pre w post : List Char)
    (hpre : ∀ c ∈ pre, rIsWhitespace c = true)
    (hpost : ∀ c ∈ post, rIsWhitespace c = true)
    (hdropw : w.dropWhile rIsWhitespace = w)
    (hrdropw : w.rdropWhile rIsWhitespace = w)
    (hne : w ≠ []) :
    rtrim (pre ++ w ++ post) = w := by
  rw [rtrim, List.append_assoc, List.dropWhile_append_of_pos hpre, List.dropWhile_append,
    hdropw]
  rw [if_neg (by simpa [List.isEmpty_iff] using hne)]
  rw [rdropWhile_append_all w post hpost, hrdropw]

theorem splitNl_ne_nil (s : List Char) : splitNl s ≠ [] := by
  cases s with
  | nil => simp [splitNl]
  | cons c rest =>
    simp only [splitNl]
    by_cases hc : c = '\n'
    · simp [hc]
    · rw [if_neg hc]
      cases h : splitNl rest <;> simp

theorem splitNl_headPre (s : List Char) :
    ∀ l, (splitNl s).head? = some l → l <+: s := by
  induction s with
  | nil =>
    intro l hl
    simp only [splitNl, List.head?_cons, Option.some.injEq] at hl
    rw [← hl]
  | cons c rest ih =>
    intro l hl
    simp only [splitNl] at hl
    by_cases hc : c = '\n'
    · rw [if_pos hc] at hl
      simp only [List.head?_cons, Option.some.injEq] at hl
      rw [← hl]
      exact List.nil_prefix
    · rw [if_neg hc] at hl
      cases h : splitNl rest with
      | nil => exact absurd h (splitNl_ne_nil rest)
      | cons p ps =>
        rw [h] at hl
        simp only [List.head?_cons, Option.some.injEq] at hl
        have hp : p <+: rest := ih p (by rw [h]; rfl)
        rw [← hl]
        exact List.cons_prefix_cons.mpr ⟨rfl, hp⟩

theorem infix_of_mem_splitNl (s : List Char) :
    ∀ l ∈ splitNl s, l <:+: s := by
  induction s with
  | nil =>
    intro l hl
    simp only [splitNl, List.mem_singleton] at hl
    simp [hl]
  | cons c rest ih =>
    intro l hl
    simp only [splitNl] at hl
    by_cases hc : c = '\n'
    · rw [if_pos hc] at hl
      rcases List.mem_cons.mp hl with h | h
      · simp [h]
      · exact List.infix_cons (ih l h)
    · rw [if_neg hc] at hl
      cases hsp : splitNl rest with
      | nil => exact absurd hsp (splitNl_ne_nil rest)
      | cons p ps =>
        rw [hsp] at hl
        rcases List.mem_cons.mp hl with h | h
        · subst h
          have hp : p <+: rest := splitNl_headPre rest p (by rw [hsp]; rfl)
          exact (List.cons_prefix_cons.mpr ⟨rfl, hp⟩).isInfix
        · have hmem : l ∈ splitNl rest := by
            rw [hsp]
            exact List.mem_cons_of_mem p h
          exact List.infix_cons (ih l hmem)

theorem stripCr_within (l : List Char) : stripCr l <:+: l := by
  unfold stripCr
  split
  · exact ( List.dropLast_prefix l).isInfix
  · exact List.infix_refl l

theorem exists_part_of_mem_rlines (s l : List Char) (hl : l ∈ rlines s) :
    ∃ p ∈ splitNl s, l <:+: p := by
  simp only [rlines] at hl
  cases hg : (splitNl s).getLast? with
  | none => rw [hg] at hl; simp at hl
  | some last =>
    rw [hg] at hl
    cases last with
    | nil =>
      simp only [List.mem_map] at hl
      obtain ⟨p, hp, hpl⟩ := hl
      exact ⟨p, List.dropLast_subset _ hp, hpl ▸ stripCr_within p⟩
    | cons c rest =>
      simp only [List.mem_append, List.mem_map, List.mem_singleton] at hl
      rcases hl with ⟨p, hp, hpl⟩ | hlast
      · exact ⟨p, List.dropLast_subset _ hp, hpl ▸ stripCr_within p⟩
      · exact ⟨c :: rest, List.mem_of_getLast?_eq_some hg, hlast ▸ List.infix_refl _⟩

theorem infix_allDone_of_line (t l : List Char) (hl : l ∈ rlines t)
    (htrim : rtrim l = strL "ALL_DONE") : strL "ALL_DONE" <:+: t := by
  obtain ⟨p, hp, hinf⟩ := exists_part_of_mem_rlines t l hl
  have h1 : strL "ALL_DONE" <:+: l := htrim ▸ rtrim_within l
  exact (h1.trans hinf).trans (infix_of_mem_splitNl t p hp)

theorem containsSeq_iff (hay pat : List Char) :
    containsSeq hay pat = true ↔ pat <:+: hay := by
  unfold containsSeq
  rw [List.any_eq_true]
  constructor
  · rintro ⟨i, _, hp⟩
    rw [ List.isPrefixOf_iff_prefix] at hp
    exact List.infix_iff_prefix_suffix.mpr ⟨hay.drop i, hp, List.drop_suffix _ _⟩
  · intro h
    obtain ⟨t, hpt, hts⟩ := List.infix_iff_prefix_suffix.mp h
    obtain ⟨q, hq⟩ := hts
    refine ⟨q.length, ?_, ?_⟩
    · rw [List.mem_range]
      have : q.length + t.length = hay.length := by
        rw [← hq, List.length_append]
      omega
    · rw [ List.isPrefixOf_iff_prefix, ← hq, List.drop_left]
      exact hpt

/-- Claim C1 (amended): the batch detector `navigator_signaled_done`
signals completion exactly when the trimmed output uppercases to the
bare token `"ALL_DONE"` — so every letter-casing, with or without
surrounding whitespace, triggers it and no string with the token merely
embedded does; the interactive detector `critic_signaled_done`,
however, signals completion exactly when some `Text` item contains the
uppercase token `"ALL_DONE"` as a substring, so it also fires on
embedded occurrences and does not fire on other casings. -/
theorem completion_detection_contract :
    (∀ s, navigator_signaled_done s = true ↔ mapUpper (rtrim s) = strL "ALL_DONE") ∧
    (∀ pre w post, (∀ c ∈ pre, rIsWhitespace c = true) →
      (∀ c ∈ post, rIsWhitespace c = true) →
      mapUpper w = strL "ALL_DONE" →
      navigator_signaled_done (pre ++ w ++ post) = true) ∧
    (∀ items, critic_signaled_done items = true ↔
      ∃ t, ContentItem.text t ∈ items ∧ containsSeq t (strL "ALL_DONE") = true) := by
  have hnav : ∀ s, navigator_signaled_done s = true ↔ mapUpper (rtrim s) = strL "ALL_DONE" := by
    intro s
    unfold navigator_signaled_done
    simp only [Bool.or_eq_true, decide_eq_true_eq]
    constructor
    · rintro (h | h)
      · rw [h]
        decide
      · exact h
    · exact fun h => Or.inr h
  refine ⟨hnav, ?_, ?_⟩
  · intro pre w post hpre hpost hw
    obtain ⟨hd, hrd, hne⟩ := casing_trim_facts w hw
    rw [hnav, rtrim_padded pre w post hpre hpost hd hrd hne, hw]
  · intro items
    unfold critic_signaled_done
    rw [List.any_eq_true]
    constructor
    · rintro ⟨item, hmem, hpred⟩
      cases item with
      | text t =>
        have hpred' : ((rlines t).any (fun line => rtrim line = strL "ALL_DONE")
            || containsSeq t (strL "ALL_DONE")) = true := hpred
        rw [Bool.or_eq_true] at hpred'
        rcases hpred' with h | h
        · rw [List.any_eq_true] at h
          obtain ⟨l, hlmem, htr⟩ := h
          rw [decide_eq_true_eq] at htr
          exact ⟨t, hmem, (containsSeq_iff t _).mpr (infix_allDone_of_line t l hlmem htr)⟩
        · exact ⟨t, hmem, h⟩
      | toolCall tc => exact absurd hpred (by simp)
      | reasoning t => exact absurd hpred (by simp)
      | command cmd => exact absurd hpred (by simp)
    · rintro ⟨t, hmem, hcon⟩
      refine ⟨ContentItem.text t, hmem, ?_⟩
      show ((rlines t).any (fun line => rtrim line = strL "ALL_DONE")
          || containsSeq t (strL "ALL_DONE")) = true
      rw [hcon]
      simp

/-- Witness for C1 (amended): a lowercase casing surrounded by
whitespace is detected by the batch detector. -/
theorem completion_detection_witness :
    navigator_signaled_done (strL " " ++ strL "all_done" ++ strL "\n") = true :=
  completion_detection_contract.2.1 (strL " ") (strL "all_done") (strL "\n")
    (by decide) (by decide) (by decide)

/-- Counterexample to C1 as stated: the interactive detector fires on
the token embedded in other text and does not fire on a lowercase
casing, while the batch detector behaves as the claim says on the same
inputs. -/
theorem completion_detection_counterexample :
    critic_signaled_done [ContentItem.text (strL "ALL_DONE but more")] = true ∧
    critic_signaled_done [ContentItem.text (strL "all_done")] = false ∧
    navigator_signaled_done (strL "ALL_DONE but more") = false ∧
    navigator_signaled_done (strL "all_done") = true := by
  refine ⟨?_, ?_, ?_, ?_⟩ <;> decide

set_option maxRecDepth 8000 in
/-- Claim C5: each reviewer prompt is the fixed template text around a
single interpolation of the producer output.  The first-invocation
prompt starts with the role framing `"ROLE: Helpful Peer"` and contains
the `"## Original Task"` section with the task when one is supplied;
the continuation prompt is built from fixed text that does not depend
on task or context at all (so it contains neither the role framing nor
the task); and the fixed text after the output mentions the completion
token `"ALL_DONE"` in both templates.  Holds for the batch
`build_navigator_prompt` and the interactive `build_critic_prompt`. -/
theorem prompt_template_contract :
    (∀ task context out, build_navigator_prompt task context out false
      = navFirstPre task context ++ out ++ navFirstPost) ∧
    (∀ task context out, build_navigator_prompt task context out true
      = contPre "driver" ++ out ++ contPost) ∧
    (∀ task context, strL "ROLE: Helpful Peer" <+: navFirstPre task context) ∧
    (∀ t context, strL "## Original Task\n" ++ t <:+: navFirstPre (some t) context) ∧
    (∀ task out, build_critic_prompt task out false
      = criticFirstPre task ++ out ++ navFirstPost) ∧
    (∀ task out, build_critic_prompt task out true
      = contPre "maker" ++ out ++ contPost) ∧
    (∀ task, strL "ROLE: Helpful Peer" <+: criticFirstPre task) ∧
    (∀ task, strL "## Original Task\n" ++ task <:+: criticFirstPre task) ∧
    containsSeq navFirstPost (strL "ALL_DONE") = true ∧
    containsSeq contPost (strL "ALL_DONE") = true ∧
    containsSeq (contPre "driver" ++ contPost) (strL "ROLE: Helpful Peer") = false ∧
    containsSeq (contPre "maker" ++ contPost) (strL "ROLE: Helpful Peer") = false ∧
    containsSeq (contPre "driver" ++ contPost) (strL "## Original Task") = false ∧
    containsSeq (contPre "maker" ++ contPost) (strL "## Original Task") = false := by
  refine ⟨?_, ?_, ?_, ?_, ?_, ?_, ?_, ?_, ?_, ?_, ?_, ?_, ?_, ?_⟩
  · intro task context out
    simp [build_navigator_prompt, navFirstPre, List.append_assoc]
  · intro task context out
    simp [build_navigator_prompt]
  · intro task context
    have h1 : strL "ROLE: Helpful Peer" <+: roleHeader "driver" := by decide
    refine h1.trans ?_
    simp only [navFirstPre]
    exact ((List.prefix_append _ _).trans (List.prefix_append _ _)).trans
      (List.prefix_append _ _)
  · intro t context
    refine ⟨roleHeader "driver",
      strL "\n\n"
        ++ (match context with
            | some c => strL "## Context\n" ++ c ++ strL "\n\n"
            | none => [])
        ++ strL "## Driver's Output\n\n---\n", ?_⟩
    simp [navFirstPre, List.append_assoc]
  · intro task out
    simp [build_critic_prompt, criticFirstPre, List.append_assoc]
  · intro task out
    simp [build_critic_prompt]
  · intro task
    have h1 : strL "ROLE: Helpful Peer"
        <+: strL "ROLE: Helpful Peer\nYou are acting as a helpful peer. Your job is to evaluate the maker's work for the task below.\nDo not offer to do things. Discuss, comment, and guide the maker. \nYour job is not to block the maker, but to help them make progress and point out things they may have missed.\nProgress is the goal, not perfection. We work iteratively, so we can improve incrementally.\n\n## Original Task\n" := by
      decide
    refine h1.trans ?_
    simp only [criticFirstPre]
    exact (List.prefix_append _ _).trans (List.prefix_append _ _)
  · intro task
    refine ⟨strL "ROLE: Helpful Peer\nYou are acting as a helpful peer. Your job is to evaluate the maker's work for the task below.\nDo not offer to do things. Discuss, comment, and guide the maker. \nYour job is not to block the maker, but to help them make progress and point out things they may have missed.\nProgress is the goal, not perfection. We work iteratively, so we can improve incrementally.\n\n",
      strL "\n\n## Maker's Output\n\n---\n", ?_⟩
    have hsplit : strL "ROLE: Helpful Peer\nYou are acting as a helpful peer. Your job is to evaluate the maker's work for the task below.\nDo not offer to do things. Discuss, comment, and guide the maker. \nYour job is not to block the maker, but to help them make progress and point out things they may have missed.\nProgress is the goal, not perfection. We work iteratively, so we can improve incrementally.\n\n## Original Task\n"
        = strL "ROLE: Helpful Peer\nYou are acting as a helpful peer. Your job is to evaluate the maker's work for the task below.\nDo not offer to do things. Discuss, comment, and guide the maker. \nYour job is not to block the maker, but to help them make progress and point out things they may have missed.\nProgress is the goal, not perfection. We work iteratively, so we can improve incrementally.\n\n"
          ++ strL "## Original Task\n" := by decide
    simp [criticFirstPre, hsplit, List.append_assoc]
  · decide
  · decide
  · decide
  · decide
  · decide
  · decide

/-- Claim C6 (amended): the batch copy of `summarize_tool_result`
satisfies the shared summarization contract for every input; the
interactive copy satisfies the byte-length variant of the contract
instead, appending the ellipsis marker whenever the byte length exceeds
the threshold even when the character count does not (and when the
character count exceeds it, the two variants agree). -/
theorem summarize_tool_result_contract :
    (∀ content, summarize_tool_result content = spec_summarize content) ∧
    (∀ content, summarize_tool_result_tui content = spec_summarize_bytes content) ∧
    (∀ s, 100 < s.length →
      summarize_tool_result_tui (some (.str s))
        = summarize_tool_result (some (.str s))) := by
  refine ⟨fun content => ?_, fun content => ?_, fun s hs => ?_⟩
  · cases content with
    | none => rfl
    | some v => cases v <;> rfl
  · cases content with
    | none => rfl
    | some v => cases v <;> rfl
  · have hb : 100 < byteLen s := by
      have h1 : s.length ≤ byteLen s := by
        clear hs
        induction s with
        | nil => simp [byteLen_nil]
        | cons c rest ih =>
          have := Char.utf8Size_pos c
          rw [byteLen_cons, List.length_cons]
          omega
      omega
    show (if (rlines s).length ≤ 3 then
        s.take 100 ++ (if 100 < byteLen s then strL "..." else []) else _) = _
    rw [if_pos hb]
    simp only [summarize_tool_result, truncate_line, if_neg (by omega : ¬ s.length ≤ 100)]

/-- Witness for C6 at concrete inputs exercising both copies. -/
theorem summarize_tool_result_contract_witness :
    summarize_tool_result (some (.str (strL "Line 1\nLine 2\nLine 3\nLine 4\nLine 5")))
      = spec_summarize (some (.str (strL "Line 1\nLine 2\nLine 3\nLine 4\nLine 5"))) ∧
    summarize_tool_result_tui none = spec_summarize_bytes none ∧
    summarize_tool_result_tui (some (.str (List.replicate 101 'x')))
      = summarize_tool_result (some (.str (List.replicate 101 'x'))) :=
  ⟨summarize_tool_result_contract.1 _, summarize_tool_result_contract.2.1 _,
   summarize_tool_result_contract.2.2 (List.replicate 101 'x') (by decide)⟩

/-- Counterexample to C6 as stated: on a 34-character (102-byte) string
the interactive copy appends the ellipsis marker although the string is
at most 100 characters and at most 3 lines, so it does not return the
string itself as the shared contract requires; the batch copy does. -/
theorem summarize_tool_result_counterexample :
    summarize_tool_result_tui (some (.str (List.replicate 34 '€')))
      = List.replicate 34 '€' ++ strL "..." ∧
    summarize_tool_result (some (.str (List.replicate 34 '€')))
      = List.replicate 34 '€' ∧
    (rlines (List.replicate 34 '€')).length = 1 ∧
    (List.replicate 34 '€').length = 34 ∧
    summarize_tool_result_tui (some (.str (List.replicate 34 '€')))
      ≠ List.replicate 34 '€' := by
  refine ⟨?_, ?_, ?_, ?_, ?_⟩ <;> decide

theorem run_batch_loop_cap (M : Nat) (navOuts : Nat → List Char)
    (hnav : ∀ i, navigator_signaled_done (navOuts i) = false) :
    ∀ fuel turn navCount, 0 < M → turn < M → M - turn ≤ fuel →
      run_batch_loop M navOuts fuel turn navCount
        = some (M, navCount + (M - turn), .capReached) := by
  intro fuel
  induction fuel with
  | zero =>
    intro turn navCount h1 h2 h3
    omega
  | succ fuel ih =>
    intro turn navCount h1 h2 h3
    simp only [run_batch_loop, hnav turn, Bool.false_eq_true, if_false]
    by_cases hc : M ≤ turn + 1
    · rw [if_pos ⟨h1, hc⟩]
      have e1 : turn + 1 = M := by omega
      have e2 : navCount + 1 = navCount + (M - turn) := by omega
      rw [e1, e2]
    · rw [if_neg (fun h => hc h.2)]
      rw [ih (turn + 1) (navCount + 1) h1 (by omega) (by omega)]
      have e2 : navCount + 1 + (M - (turn + 1)) = navCount + (M - turn) := by omega
      rw [e2]

theorem run_batch_loop_unlimited (navOuts : Nat → List Char)
    (hnav : ∀ i, navigator_signaled_done (navOuts i) = false) :
    ∀ fuel turn navCount, run_batch_loop 0 navOuts fuel turn navCount = none := by
  intro fuel
  induction fuel with
  | zero => intro turn navCount; rfl
  | succ fuel ih =>
    intro turn navCount
    simp only [run_batch_loop, hnav turn, Bool.false_eq_true, if_false]
    rw [if_neg (by omega)]
    exact ih (turn + 1) (navCount + 1)

theorem handle_critic_done_running (app : App) (mfb : Nat) (items : List ContentItem)
    (hrole : app.streaming_role = some (strL "critic"))
    (hitems : app.streaming_items = items)
    (hstate : app.state = .running)
    (hnotdone : critic_signaled_done items = false) :
    (0 < app.max_turns ∧ app.max_turns ≤ app.turn + 1 →
      (handle_critic_done app mfb).1.state = .finished ∧
      (handle_critic_done app mfb).1.turn = app.turn + 1) ∧
    (¬ (0 < app.max_turns ∧ app.max_turns ≤ app.turn + 1) →
      (handle_critic_done app mfb).1.state = .running ∧
      (handle_critic_done app mfb).1.turn = app.turn + 1 ∧
      (handle_critic_done app mfb).1.max_turns = app.max_turns) := by
  constructor
  · intro hcap
    simp only [handle_critic_done, hrole, hitems, hnotdone, Bool.false_eq_true, if_false]
    rw [if_pos (by simpa using hcap)]
    exact ⟨rfl, rfl⟩
  · intro hcap
    simp only [handle_critic_done, hrole, hitems, hnotdone, Bool.false_eq_true, if_false]
    rw [if_neg (by simpa using hcap)]
    rw [if_pos (by simpa using hstate)]
    exact ⟨hstate, rfl, rfl⟩

theorem run_critic_rounds_cap (M mfb : Nat) (outs : Nat → List ContentItem)
    (hout : ∀ i, critic_signaled_done (outs i) = false) :
    ∀ fuel (app : App), app.state = .running → app.max_turns = M → 0 < M →
      app.turn < M → M - app.turn ≤ fuel →
      run_critic_rounds mfb outs fuel app = some (M, .capReached) := by
  intro fuel
  induction fuel with
  | zero =>
    intro app h1 h2 h3 h4 h5
    omega
  | succ fuel ih =>
    intro app h1 h2 h3 h4 h5
    simp only [run_critic_rounds]
    by_cases hc : M ≤ app.turn + 1
    · have hfin := (handle_critic_done_running (criticRoundInput app outs) mfb
        (outs app.turn) rfl rfl h1 (hout app.turn)).1
        (by simp [criticRoundInput]; omega)
      rw [if_pos hfin.1, hfin.2]
      simp only [hout app.turn, Bool.false_eq_true, if_false]
      have he : (criticRoundInput app outs).turn + 1 = M := by
        simp only [criticRoundInput]
        omega
      rw [he]
    · have hrun := (handle_critic_done_running (criticRoundInput app outs) mfb
        (outs app.turn) rfl rfl h1 (hout app.turn)).2
        (by simp [criticRoundInput]; omega)
      rw [if_neg (by rw [hrun.1]; simp)]
      refine ih (handle_critic_done (criticRoundInput app outs) mfb).1
        hrun.1 ?_ h3 ?_ ?_
      · rw [hrun.2.2]
        simpa [criticRoundInput] using h2
      · rw [hrun.2.1]
        simp only [criticRoundInput]
        omega
      · rw [hrun.2.1]
        simp only [criticRoundInput]
        omega

theorem run_critic_rounds_unlimited (mfb : Nat) (outs : Nat → List ContentItem)
    (hout : ∀ i, critic_signaled_done (outs i) = false) :
    ∀ fuel (app : App), app.state = .running → app.max_turns = 0 →
      run_critic_rounds mfb outs fuel app = none := by
  intro fuel
  induction fuel with
  | zero => intro app h1 h2; rfl
  | succ fuel ih =>
    intro app h1 h2
    simp only [run_critic_rounds]
    have hrun := (handle_critic_done_running (criticRoundInput app outs) mfb
      (outs app.turn) rfl rfl h1 (hout app.turn)).2
      (by simp [criticRoundInput, h2])
    rw [if_neg (by rw [hrun.1]; simp)]
    exact ih _ hrun.1 (by rw [hrun.2.2]; simpa [criticRoundInput] using h2)

/-- Claim C4: with maximum `M` and a reviewer that never signals
completion, the batch loop and the interactive CriticDone handling both
increment the turn counter once per completed reviewer invocation and
stop on the turn cap exactly when `M > 0` and the counter reaches `M`
(so exactly `M` reviewer invocations complete); with `M = 0` neither
ever stops on turn count. -/
theorem turn_accounting (M : Nat) (navOuts : Nat → List Char)
    (outs : Nat → List ContentItem) (mfb : Nat) (app : App)
    (hnav : ∀ i, navigator_signaled_done (navOuts i) = false)
    (hout : ∀ i, critic_signaled_done (outs i) = false) :
    (0 < M → run_batch_loop M navOuts M 0 0 = some (M, M, .capReached)) ∧
    (∀ fuel turn navCount, run_batch_loop 0 navOuts fuel turn navCount = none) ∧
    (app.state = .running → app.max_turns = M → app.turn = 0 → 0 < M →
      run_critic_rounds mfb outs M app = some (M, .capReached)) ∧
    (app.state = .running → app.max_turns = 0 → ∀ fuel,
      run_critic_rounds mfb outs fuel app = none) := by
  refine ⟨?_, run_batch_loop_unlimited navOuts hnav, ?_, ?_⟩
  · intro hM
    have := run_batch_loop_cap M navOuts hnav M 0 0 hM hM (by omega)
    simpa using this
  · intro h1 h2 h3 hM
    exact run_critic_rounds_cap M mfb outs hout M app h1 h2 hM (by omega) (by omega)
  · intro h1 h2 fuel
    exact run_critic_rounds_unlimited mfb outs hout fuel app h1 h2

/-- Witness for C4: with cap 2 and a never-done reviewer, both loops
stop by the cap after exactly 2 reviewer invocations. -/
theorem turn_accounting_witness :
    run_batch_loop 2 (fun _ => strL "keep going") 2 0 0 = some (2, 2, .capReached) ∧
    run_critic_rounds 1000 (fun _ => [ContentItem.text (strL "more work")]) 2 runningApp
      = some (2, .capReached) := by
  have h := turn_accounting 2 (fun _ => strL "keep going")
    (fun _ => [ContentItem.text (strL "more work")]) 1000 runningApp
    (fun i => by
      show navigator_signaled_done (strL "keep going") = false
      decide)
    (fun i => by
      show critic_signaled_done [ContentItem.text (strL "more work")] = false
      decide)
  exact ⟨h.1 (by decide), h.2.2.1 rfl rfl rfl (by decide)⟩

theorem fmoStep_text (t : List Char) : fmoStep [] (.text t) = fmtText t := by
  simp [fmoStep, fmtText]

theorem joinWith_cons (sep l : List Char) (ls : List (List Char)) (h : ls ≠ []) :
    joinWith sep (l :: ls) = l ++ sep ++ joinWith sep ls := by
  cases ls with
  | nil => exact absurd rfl h
  | cons a as => rfl

theorem joinWith_cons_head (sep p : List Char) (c : Char) (X : List (List Char)) :
    joinWith sep ((c :: p) :: X) = c :: joinWith sep (p :: X) := by
  cases X with
  | nil => rfl
  | cons y ys => simp [joinWith, List.cons_append]

theorem joinWith_append (sep : List Char) (A B : List (List Char))
    (hA : A ≠ []) (hB : B ≠ []) :
    joinWith sep (A ++ B) = joinWith sep A ++ sep ++ joinWith sep B := by
  induction A with
  | nil => exact absurd rfl hA
  | cons a as ih =>
    cases as with
    | nil =>
      rw [List.cons_append, List.nil_append, joinWith_cons sep a B hB]
      rfl
    | cons b bs =>
      rw [List.cons_append,
        joinWith_cons sep a ((b :: bs) ++ B) (by simp),
        ih (by simp),
        joinWith_cons sep a (b :: bs) (by simp)]
      simp [List.append_assoc]

theorem fmoStep_acc (out : List Char) (item : ContentItem)
    (h : out = [] ∨ out.getLast? = some '\n') :
    fmoStep out item = out ++ fmoStep [] item := by
  rcases h with h | h
  · rw [h, List.nil_append]
  · have hne : out ≠ [] := by
      intro h0
      rw [h0] at h
      simp at h
    cases item with
    | text t =>
      rw [fmoStep_text]
      simp only [fmoStep]
      have hsep : (if ¬ out.isEmpty ∧ out.getLast? ≠ some '\n' then out ++ ['\n'] else out)
          = out :=
        if_neg (by
          rintro ⟨_, h2⟩
          exact h2 h)
      rw [hsep, fmtText]
      by_cases ht : t.getLast? = some '\n'
      · rw [if_neg (fun hcon => hcon ht), if_neg (fun hcon => hcon ht)]
      · rw [if_pos ht, if_pos ht]
        simp [List.append_assoc]
    | toolCall tc => simp [fmoStep, List.append_assoc]
    | reasoning t => simp [fmoStep, List.append_assoc]
    | command cmd => simp [fmoStep, List.append_assoc]

theorem flatMap_endsWith_nl (f : List Char → List Char)
    (hf : ∀ l, (f l).getLast? = some '\n') (ls : List (List Char)) :
    ls.flatMap f = [] ∨ (ls.flatMap f).getLast? = some '\n' := by
  induction ls with
  | nil => left; simp
  | cons l rest ih =>
    right
    rw [List.flatMap_cons, List.getLast?_append]
    rcases ih with h | h
    · rw [h]
      simp [hf l]
    · rw [h]
      rfl

theorem fmoStep_last (item : ContentItem) :
    fmoStep [] item = [] ∨ (fmoStep [] item).getLast? = some '\n' := by
  cases item with
  | text t =>
    right
    rw [fmoStep_text, fmtText]
    by_cases h : t.getLast? = some '\n'
    · rw [if_neg (by simpa using h)]
      exact h
    · rw [if_pos (by simpa using h)]
      exact List.getLast?_concat t
  | toolCall tc =>
    right
    simp only [fmoStep, List.nil_append]
    exact List.getLast?_concat _
  | reasoning t =>
    have := flatMap_endsWith_nl
      (fun line => strL "  thinking: " ++ truncate_line line 80 ++ ['\n'])
      (fun l => List.getLast?_concat _) (rlines t)
    simpa [fmoStep] using this
  | command cmd =>
    right
    simp only [fmoStep, List.nil_append]
    exact List.getLast?_concat _

theorem foldl_fmoStep (items : List ContentItem) :
    ∀ out, (out = [] ∨ out.getLast? = some '\n') →
      List.foldl fmoStep out items = out ++ fmoChunks items := by
  induction items with
  | nil =>
    intro out _
    simp [fmoChunks]
  | cons it rest ih =>
    intro out h
    rw [List.foldl_cons, fmoStep_acc out it h, fmoChunks]
    rw [ih (out ++ fmoStep [] it) ?inv, List.append_assoc]
    case inv =>
      rcases fmoStep_last it with h2 | h2
      · rw [h2, List.append_nil]
        exact h
      · right
        rw [List.getLast?_append, h2]
        rfl

theorem dropLastEmpty_cons (x : List Char) (ps : List (List Char)) (h : ps ≠ []) :
    dropLastEmpty (x :: ps) = x :: dropLastEmpty ps := by
  cases ps with
  | nil => exact absurd rfl h
  | cons p ps' =>
    simp only [dropLastEmpty, List.getLast?_cons_cons, List.dropLast_cons₂]
    split <;> rfl

theorem joinWith_splitNl (t : List Char) : joinWith ['\n'] (splitNl t) = t := by
  induction t with
  | nil => rfl
  | cons c rest ih =>
    by_cases hc : c = '\n'
    · subst hc
      rw [show splitNl ('\n' :: rest) = [] :: splitNl rest from by simp [splitNl]]
      rw [joinWith_cons _ _ _ (splitNl_ne_nil rest), ih]
      rfl
    · cases hsp : splitNl rest with
      | nil => exact absurd hsp (splitNl_ne_nil rest)
      | cons p ps =>
        rw [show splitNl (c :: rest) = (c :: p) :: ps from by
          simp only [splitNl, if_neg hc, hsp]]
        rw [joinWith_cons_head]
        rw [← hsp, ih]

theorem rlines_eq_dropLastEmpty (t : List Char) (h : '\r' ∉ t) :
    rlines t = dropLastEmpty (splitNl t) := by
  have hsub : ∀ p ∈ splitNl t, '\r' ∉ p := by
    intro p hp hc
    exact h ((infix_of_mem_splitNl t p hp).subset hc)
  have hmap : List.map stripCr (splitNl t).dropLast = (splitNl t).dropLast := by
    have hstrip : ∀ p ∈ (splitNl t).dropLast, stripCr p = p := by
      intro p hp
      have hcr : '\r' ∉ p := hsub p (List.dropLast_subset _ hp)
      unfold stripCr
      rw [if_neg (fun heq => hcr (List.mem_of_getLast?_eq_some heq))]
    calc List.map stripCr (splitNl t).dropLast
        = List.map id (splitNl t).dropLast := List.map_congr_left hstrip
      _ = (splitNl t).dropLast := List.map_id _
  cases hg : (splitNl t).getLast? with
  | none =>
    exact absurd (List.getLast?_eq_none_iff.mp hg) (splitNl_ne_nil t)
  | some last =>
    cases last with
    | nil =>
      simp only [rlines, hg, dropLastEmpty, if_pos rfl]
      exact hmap
    | cons a as =>
      simp only [rlines, hg, dropLastEmpty]
      rw [if_neg (by simp)]
      rw [hmap]
      have hne := splitNl_ne_nil t
      have hge : (splitNl t).getLast hne = a :: as := by
        have := List.getLast?_eq_getLast (splitNl t) hne
        rw [this] at hg
        exact Option.some.inj hg
      rw [← hge]
      exact List.dropLast_concat_getLast hne

theorem splitNl_cons_of_ne (c : Char) (rest : List Char) (hc : c ≠ '\n') :
    ∃ p ps, splitNl rest = p :: ps ∧ splitNl (c :: rest) = (c :: p) :: ps := by
  cases hsp : splitNl rest with
  | nil => exact absurd hsp (splitNl_ne_nil rest)
  | cons p ps => exact ⟨p, ps, rfl, by simp [splitNl, if_neg hc, hsp]⟩

theorem fmtText_cons (c : Char) (rest : List Char) (h : rest ≠ []) :
    fmtText (c :: rest) = c :: fmtText rest := by
  unfold fmtText
  have hg : (c :: rest).getLast? = rest.getLast? := by
    cases rest with
    | nil => exact absurd rfl h
    | cons a as => simp
  rw [hg]
  split <;> simp

theorem dropLastEmpty_splitNl_ne_nil (c : Char) (r : List Char) :
    dropLastEmpty (splitNl (c :: r)) ≠ [] := by
  by_cases hc : c = '\n'
  · subst hc
    rw [show splitNl ('\n' :: r) = [] :: splitNl r from by simp [splitNl]]
    rw [dropLastEmpty_cons [] _ (splitNl_ne_nil r)]
    simp
  · obtain ⟨p, ps, _, heq⟩ := splitNl_cons_of_ne c r hc
    rw [heq]
    cases ps with
    | nil =>
      unfold dropLastEmpty
      rw [if_neg (by simp)]
      simp
    | cons q qs =>
      rw [dropLastEmpty_cons _ _ (by simp)]
      simp

theorem fmtText_eq (t : List Char) :
    fmtText t = joinWith ['\n'] (dropLastEmpty (splitNl t)) ++ ['\n'] := by
  induction t with
  | nil => decide
  | cons c rest ih =>
    by_cases hc : c = '\n'
    · subst hc
      rw [show splitNl ('\n' :: rest) = [] :: splitNl rest from by simp [splitNl]]
      by_cases hr : rest = []
      · subst hr
        decide
      · rw [fmtText_cons '\n' rest hr, ih,
          dropLastEmpty_cons [] (splitNl rest) (splitNl_ne_nil rest)]
        have hXne : dropLastEmpty (splitNl rest) ≠ [] := by
          cases rest with
          | nil => exact absurd rfl hr
          | cons a as => exact dropLastEmpty_splitNl_ne_nil a as
        rw [joinWith_cons _ _ _ hXne, List.nil_append]
        simp
    · obtain ⟨p, ps, hsp, heq⟩ := splitNl_cons_of_ne c rest hc
      by_cases hr : rest = []
      · subst hr
        have hp : p = [] ∧ ps = ([] : List (List Char)) := by
          have : ([] : List Char) :: ([] : List (List Char)) = p :: ps := by
            simpa [splitNl] using hsp
          exact ⟨(List.cons.injEq _ _ _ _ ▸ this).1.symm,
            (List.cons.injEq _ _ _ _ ▸ this).2.symm⟩
        rw [heq, hp.1, hp.2]
        simp [fmtText, dropLastEmpty, joinWith, hc]
      · rw [fmtText_cons c rest hr, ih, heq]
        cases ps with
        | nil =>
          have hrp : rest = p := by
            have hj := joinWith_splitNl rest
            rw [hsp] at hj
            simpa [joinWith] using hj.symm
          have hpne : p ≠ [] := by
            rw [← hrp]
            exact hr
          rw [hsp]
          have h1 : dropLastEmpty [p] = [p] := by
            unfold dropLastEmpty
            rw [if_neg (by
              intro hcon
              simp only [List.getLast?_singleton, Option.some.injEq] at hcon
              exact hpne hcon)]
          have h2 : dropLastEmpty [c :: p] = [c :: p] := by
            unfold dropLastEmpty
            rw [if_neg (by simp)]
          rw [h1, h2]
          simp [joinWith]
        | cons q qs =>
          rw [hsp, dropLastEmpty_cons (c :: p) (q :: qs) (by simp),
            dropLastEmpty_cons p (q :: qs) (by simp), joinWith_cons_head]
          simp

theorem flatMap_join_nl (f : List Char → List Char) (ls : List (List Char)) (h : ls ≠ []) :
    ls.flatMap (fun l => f l ++ ['\n']) = joinWith ['\n'] (ls.map f) ++ ['\n'] := by
  induction ls with
  | nil => exact absurd rfl h
  | cons l rest ih =>
    cases rest with
    | nil => simp [joinWith]
    | cons a as =>
      rw [List.flatMap_cons, ih (by simp)]
      have hjoin : joinWith ['\n'] (List.map f (l :: a :: as))
          = f l ++ ['\n'] ++ joinWith ['\n'] (List.map f (a :: as)) := by
        rw [List.map_cons]
        exact joinWith_cons _ _ _ (by simp)
      rw [hjoin]
      simp [List.append_assoc]

theorem chunk_eq_renderItem (item : ContentItem)
    (hok : ∀ t, item = .text t → t ≠ [] ∧ '\r' ∉ t ∧ ∀ l ∈ rlines t, l.length ≤ 500) :
    (fmoStep [] item = joinWith ['\n'] (renderItem item) ++ ['\n'] ∧ renderItem item ≠ []) ∨
    (fmoStep [] item = [] ∧ renderItem item = []) := by
  cases item with
  | text t =>
    left
    obtain ⟨hne, hcr, h500⟩ := hok t rfl
    have hmap : (rlines t).map (fun line => truncate_line line 500) = rlines t := by
      calc (rlines t).map (fun line => truncate_line line 500)
          = (rlines t).map id := List.map_congr_left (fun l hl => by
              unfold truncate_line
              rw [if_pos (h500 l hl)]
              rfl)
        _ = rlines t := List.map_id _
    refine ⟨?_, ?_⟩
    · rw [fmoStep_text, fmtText_eq, renderItem, hmap, rlines_eq_dropLastEmpty t hcr]
    · rw [renderItem, hmap, rlines_eq_dropLastEmpty t hcr]
      cases t with
      | nil => exact absurd rfl hne
      | cons c r => exact dropLastEmpty_splitNl_ne_nil c r
  | toolCall tc =>
    left
    exact ⟨by simp [fmoStep, renderItem, joinWith], by simp [renderItem]⟩
  | reasoning t =>
    cases hl : rlines t with
    | nil =>
      right
      exact ⟨by simp [fmoStep, hl], by simp [renderItem, hl]⟩
    | cons l ls =>
      left
      refine ⟨?_, by simp [renderItem, hl]⟩
      have hstep : fmoStep [] (.reasoning t)
          = (rlines t).flatMap
            (fun line => (strL "  thinking: " ++ truncate_line line 80) ++ ['\n']) := by
        simp [fmoStep]
      rw [hstep, renderItem, hl]
      exact flatMap_join_nl (fun line => strL "  thinking: " ++ truncate_line line 80)
        (l :: ls) (by simp)
  | command cmd =>
    left
    exact ⟨by simp [fmoStep, renderItem, joinWith], by simp [renderItem]⟩

theorem fmoChunks_eq (items : List ContentItem)
    (hok : ∀ t, ContentItem.text t ∈ items →
      t ≠ [] ∧ '\r' ∉ t ∧ ∀ l ∈ rlines t, l.length ≤ 500) :
    (fmoChunks items = joinWith ['\n'] (render_items_to_lines items) ++ ['\n'] ∧
      render_items_to_lines items ≠ []) ∨
    (fmoChunks items = [] ∧ render_items_to_lines items = []) := by
  induction items with
  | nil => right; exact ⟨rfl, rfl⟩
  | cons it rest ih =>
    have hit := chunk_eq_renderItem it (fun t ht => hok t (by
      rw [← ht]
      exact List.mem_cons_self it rest))
    have hrest := ih (fun t ht => hok t (List.mem_cons_of_mem it ht))
    have hrw : render_items_to_lines (it :: rest)
        = renderItem it ++ render_items_to_lines rest := by
      simp [render_items_to_lines]
    have hcw : fmoChunks (it :: rest) = fmoStep [] it ++ fmoChunks rest := rfl
    rw [hrw, hcw]
    rcases hit with ⟨hc1, hc2⟩ | ⟨hc1, hc2⟩
    · rcases hrest with ⟨hr1, hr2⟩ | ⟨hr1, hr2⟩
      · left
        refine ⟨?_, by simp [hc2]⟩
        rw [hc1, hr1, joinWith_append _ _ _ hc2 hr2]
        simp [List.append_assoc]
      · left
        rw [hr1, hr2, List.append_nil, List.append_nil]
        exact ⟨hc1, hc2⟩
    · rw [hc1, hc2, List.nil_append, List.nil_append]
      exact hrest

/-- Claim C2 (amended): for every committed message whose `Text` items
are nonempty, free of carriage returns, and have no line over 500
characters, the plain text forwarded to the other agent
(`format_message_output`) equals the display lines of
`render_items_to_lines` joined by newlines and trimmed of trailing
whitespace.  (In general the two are not byte-for-byte identical: the
display truncates `Text` lines over 500 characters and the forwarder
trims trailing whitespace — see the counterexample.) -/
theorem forwarding_matches_display (items : List ContentItem)
    (hok : ∀ t, ContentItem.text t ∈ items →
      t ≠ [] ∧ '\r' ∉ t ∧ ∀ l ∈ rlines t, l.length ≤ 500) :
    format_message_output items
      = trimEndL (joinWith ['\n'] (render_items_to_lines items)) := by
  rw [format_message_output, foldl_fmoStep items [] (Or.inl rfl), List.nil_append]
  rcases fmoChunks_eq items hok with ⟨h1, _⟩ | ⟨h1, h2⟩
  · rw [h1, trimEndL, trimEndL,
      List.rdropWhile_concat_pos rIsWhitespace
        (joinWith ['\n'] (render_items_to_lines items)) '\n' (by decide)]
  · rw [h1, h2]
    rfl

/-- Witness for C2 (amended) at a concrete message. -/
theorem forwarding_matches_display_witness :
    format_message_output demoItems
      = trimEndL (joinWith ['\n'] (render_items_to_lines demoItems)) :=
  forwarding_matches_display demoItems (by
    intro t ht
    simp only [demoItems, List.mem_cons, List.not_mem_nil, or_false] at ht
    rcases ht with ht | ht | ht | ht <;> first
      | (injection ht with ht; subst ht; exact ⟨by decide, by decide, by decide⟩)
      | (exact absurd ht (by simp)))

set_option maxRecDepth 10000 in
/-- Counterexample to C2 as stated: a 501-character `Text` line is
forwarded in full but displayed truncated to 500 characters plus an
ellipsis; and a `Text` item with trailing whitespace is displayed as
typed but forwarded trimmed.  So forwarded text and displayed text are
not byte-for-byte identical. -/
theorem forwarding_matches_display_counterexample :
    format_message_output [ContentItem.text (List.replicate 501 'a')]
      ≠ joinWith ['\n'] (render_items_to_lines [ContentItem.text (List.replicate 501 'a')]) ∧
    format_message_output [ContentItem.text (strL "hi ")]
      ≠ joinWith ['\n'] (render_items_to_lines [ContentItem.text (strL "hi ")]) := by
  constructor <;> decide

end Leonard
